import Mathlib

/-!
Verification of the Barrel-Cellar analysis engine against its design
specification.  The repository contains near-duplicate implementations of
the engine: `src/src/barrel.treeview.ts` (class `BarrelFilesProvider`) and
the two unnamed files `part_000` (class `BarrelViewProvider`, with a
source-file cache) and `part_001` (a second copy of both providers).
The definitions below are a shallow embedding of those files: TypeScript
top-level declarations become the inductive `Decl`, the file system becomes
an explicit association list, the two mutable caches (the syntax cache and
the path-resolution memoization table) become explicit state threaded
through the functions, and code that can throw returns `Except Unit`.
-/

namespace Barrel

/-! ## String and path primitives

These model the node:path calls (`path.join`, `path.dirname`) and the
JavaScript string methods (`endsWith`, `includes`) used by the sources,
restricted to the relative POSIX-style specifiers the engine handles.
They are written by structural recursion on the character list so that
closed instances evaluate inside the kernel. -/

/-- Drop one leading "./" from a specifier, as `path.join` normalisation does. -/
def stripDotSlash (s : String) : String :=
  match s.data with
  | '.' :: '/' :: rest => ⟨rest⟩
  | _ => s

/-- Model of `path.join(a, b)` for a base directory `a` (no trailing slash)
and a relative component `b` without ".." segments. -/
def pathJoin (a b : String) : String :=
  a ++ "/" ++ stripDotSlash b

/-- Split a character list at every slash character. -/
def splitSlash : List Char → List (List Char)
  | [] => [[]]
  | c :: rest =>
    match splitSlash rest with
    | [] => [[]]
    | h :: t => if c = '/' then [] :: h :: t else (c :: h) :: t

/-- Join path components with slashes. -/
def joinSlash : List (List Char) → List Char
  | [] => []
  | [x] => x
  | x :: xs => x ++ '/' :: joinSlash xs

/-- Model of `path.dirname`: all components but the last. -/
def dirname (p : String) : String :=
  let parts := splitSlash p.data
  if parts.length ≤ 1 then "." else ⟨joinSlash parts.dropLast⟩

/-- Model of JavaScript `String.prototype.endsWith`. -/
def strEndsWith (s suffix : String) : Bool :=
  suffix.data.isSuffixOf s.data

/-- Containment of `pat` in `s` as a contiguous substring, modelling
JavaScript `String.prototype.includes`. -/
def listContainsSeq (pat : List Char) : List Char → Bool
  | [] => pat.isEmpty
  | c :: rest => pat.isPrefixOf (c :: rest) || listContainsSeq pat rest

/-- String-level wrapper for `listContainsSeq`. -/
def containsSubstr (s pat : String) : Bool :=
  listContainsSeq pat.data s.data

/-- A single-quote character as a string (the sources build search patterns
with quote characters around the target path). -/
def squote : String := ⟨[Char.ofNat 39]⟩

/-- A double-quote character as a string. -/
def dquote : String := ⟨[Char.ofNat 34]⟩

/-! ## Top-level declarations of a parsed module

The engine dispatches on a closed set of syntactic shapes of the
TypeScript AST, so a parsed source file is embedded as the list of its
top-level declarations.  `exportDecl spec named isTypeOnly` is a
`ts.ExportDeclaration`: `spec` is the module specifier when it is present
as a string literal (`export ... from "spec"`), `named` is `some k` when
the export clause is a named list of `k` elements and `none` for the
`export *` form, and `isTypeOnly` is the declaration's own type-only flag.
The `exported…` constructors are declaration sites carrying the `export`
modifier, split by the kinds the classifiers test
(`ts.isEnumDeclaration`, `ts.isTypeAliasDeclaration`,
`ts.isInterfaceDeclaration`, anything else). -/
inductive Decl where
  | exportDecl (spec : Option String) (named : Option Nat) (isTypeOnly : Bool)
  | exportAssignment
  | exportedEnum
  | exportedTypeAlias
  | exportedInterface
  | exportedOther
  | importDecl (isTypeOnly : Bool)
  | importEquals
  | stmtOther
deriving DecidableEq, Repr

/-- A parsed module (the uses of `ts.forEachChild` in the sources walk the
top-level children of the source file). -/
abbrev Module := List Decl

/-- The test `ts.isExportDeclaration(node)` alone. -/
def isExportDeclB : Decl → Bool
  | .exportDecl _ _ _ => true
  | _ => false

/-- The test `ts.isExportDeclaration(node) && node.moduleSpecifier`:
a re-export-from declaration naming a source module. -/
def isReExportFrom : Decl → Bool
  | .exportDecl (some _) _ _ => true
  | _ => false

/-- A declaration that exports anything at all (export declaration,
export assignment, or a declaration site with the `export` modifier). -/
def isExportBearing : Decl → Bool
  | .exportDecl _ _ _ => true
  | .exportAssignment => true
  | .exportedEnum => true
  | .exportedTypeAlias => true
  | .exportedInterface => true
  | .exportedOther => true
  | _ => false

/-! ## Declaration classifier (part_000)

`getNumberOfExports(filePath, typeOnly)` (part_000, lines 330-376) walks
the tree and accumulates a count; its per-declaration contribution is
`declExportCount`.  Note its modifier-export branch computes
`isType = isTypeAliasDeclaration || isInterfaceDeclaration ||
isEnumDeclaration`, so an exported enum is counted on the type-only side
there.  `getExportSymbolCounts` (part_000, lines 54-105, with the helpers
`handleExportDeclaration` and `handleExportKeyword`) instead accumulates
two arrays of per-statement symbol counts; there an exported enum is
pushed onto the value array. -/

/-- Contribution of one declaration to `getNumberOfExports` for the given
`typeOnly` flag, following part_000 lines 345-373. -/
def declExportCount (typeOnly : Bool) : Decl → Nat
  | .exportDecl _ named isType =>
    if (if typeOnly then isType else !isType) then
      match named with
      | some k => k
      | none => 1
    else 0
  | .exportAssignment => if typeOnly then 0 else 1
  | .exportedEnum => if typeOnly then 1 else 0
  | .exportedTypeAlias => if typeOnly then 1 else 0
  | .exportedInterface => if typeOnly then 1 else 0
  | .exportedOther => if typeOnly then 0 else 1
  | _ => 0

/-- Embedding of part_000's `getNumberOfExports` on a parsed module. -/
def getNumberOfExports (m : Module) (typeOnly : Bool) : Nat :=
  (m.map (declExportCount typeOnly)).sum

/-- Contribution of one declaration to `getNumberOfImports`
(part_000 lines 394-407): one per import declaration, split by the import
clause's type-only flag; `import x = require(..)` is never type-only. -/
def declImportCount (typeOnly : Bool) : Decl → Nat
  | .importDecl isType => if (if typeOnly then isType else !isType) then 1 else 0
  | .importEquals => if typeOnly then 0 else 1
  | _ => 0

/-- Embedding of part_000's `getNumberOfImports` on a parsed module. -/
def getNumberOfImports (m : Module) (typeOnly : Bool) : Nat :=
  (m.map (declImportCount typeOnly)).sum

/-- The pair of arrays pushed for one declaration by part_000's
`countExports` (via `handleExportDeclaration` and `handleExportKeyword`):
first component the value array, second the type array. -/
def exportBucketsOf : Decl → List Nat × List Nat
  | .exportDecl _ (some k) isType => if isType then ([], [k]) else ([k], [])
  | .exportDecl _ none isType => if isType then ([], [1]) else ([1], [])
  | .exportAssignment => ([1], [])
  | .exportedEnum => ([1], [])
  | .exportedTypeAlias => ([], [1])
  | .exportedInterface => ([], [1])
  | .exportedOther => ([1], [])
  | _ => ([], [])

/-- Embedding of part_000's `getExportSymbolCounts` on a parsed module:
the `{ value, type }` arrays of per-statement symbol counts, in
declaration order. -/
def getExportSymbolCounts (m : Module) : List Nat × List Nat :=
  m.foldr (fun d acc => ((exportBucketsOf d).1 ++ acc.1, (exportBucketsOf d).2 ++ acc.2))
    ([], [])

example : getNumberOfExports [.exportDecl (some "./b") (some 2) true] true = 2 := by decide
example : getExportSymbolCounts [.exportedEnum, .exportedInterface] = ([1], [1]) := by decide

/-! ## File system

The engine probes the disk with `fs.existsSync` and reads files with
`fs.readFileSync`; reading a present `.ts` file yields its parsed module.
The disk is embedded as an association list from paths to parsed
modules. -/

/-- The on-disk state: one entry per existing file, carrying the module
its text parses to. -/
structure FS where
  files : List (String × Module)
deriving Repr

/-- Model of `fs.existsSync`. -/
def FS.existsb (fs : FS) (p : String) : Bool :=
  fs.files.any (fun e => e.1 = p)

/-- Model of `fs.readFileSync` followed by `ts.createSourceFile`: `none`
when the file does not exist (in the sources this is `readFileSync`
throwing). -/
def FS.read (fs : FS) (p : String) : Option Module :=
  (fs.files.find? (fun e => e.1 = p)).map (·.2)

/-- Removal of a file from disk (the external event behind `onDeleted`). -/
def removeFile (fs : FS) (p : String) : FS :=
  ⟨fs.files.filter (fun e => ¬ e.1 = p)⟩

/-! ## Syntax cache and change coordinator (part_000)

`sourceFileCache` is a `Map` from file path to parsed source file; it is
embedded as an association list with the `Map.set` / `Map.delete`
semantics.  `cacheSourceFile` (part_000 lines 11-25) reads and parses a
file and stores the result, and on any failure deletes the stale entry
instead of raising.  The watcher wiring (part_000 lines 190-201) calls
`cacheSourceFile` on create and change events and
`removeSourceFileFromCache` on delete events. -/

/-- The syntax cache: path to parsed module, newest entry first. -/
abbrev SynCache := List (String × Module)

/-- Lookup in the syntax cache (`sourceFileCache.get`). -/
def lookupSyn : SynCache → String → Option Module
  | [], _ => none
  | (k, v) :: rest, p => if k = p then some v else lookupSyn rest p

/-- Deletion from the syntax cache (`sourceFileCache.delete`). -/
def eraseSyn (c : SynCache) (p : String) : SynCache :=
  c.filter (fun e => ¬ e.1 = p)

/-- Embedding of part_000's `cacheSourceFile`: on a successful read the
record for the path is replaced wholesale; on failure (file missing or
unreadable) any stale record is removed and nothing is raised. -/
def cacheSourceFile (fs : FS) (c : SynCache) (p : String) : SynCache :=
  match fs.read p with
  | some m => (p, m) :: eraseSyn c p
  | none => eraseSyn c p

/-- Embedding of part_000's `removeSourceFileFromCache` (the `onDeleted`
handler's cache action). -/
def removeSourceFileFromCache (c : SynCache) (p : String) : SynCache :=
  eraseSyn c p

/-! ## Barrel detectors

part_000's `checkBarrelFile` (lines 311-328) reads the cached source file
(returning `false` when the record is absent) and sets its flag for any
top-level `ts.isExportDeclaration` node, with or without a module
specifier.  part_001's `checkBarrelFile` (lines 153-162) parses the file
directly and additionally requires `node.moduleSpecifier`. -/

/-- Embedding of part_000's cache-based `checkBarrelFile`. -/
def checkBarrelFileCached (c : SynCache) (p : String) : Bool :=
  match lookupSyn c p with
  | none => false
  | some m => m.any isExportDeclB

/-- Embedding of part_001's `checkBarrelFile`; `Except.error` models the
`readFileSync` exception on a missing file. -/
def checkBarrelFile (fs : FS) (p : String) : Except Unit Bool :=
  match fs.read p with
  | none => .error ()
  | some m => .ok (m.any isReExportFrom)

/-- Cache-based wrapper of `getNumberOfExports`, as part_000 uses it
(returning 0 when the record is absent). -/
def getNumberOfExportsCached (c : SynCache) (p : String) (typeOnly : Bool) : Nat :=
  match lookupSyn c p with
  | none => 0
  | some m => getNumberOfExports m typeOnly

/-- Cache-based wrapper of `getNumberOfImports`, as part_000 uses it. -/
def getNumberOfImportsCached (c : SynCache) (p : String) (typeOnly : Bool) : Nat :=
  match lookupSyn c p with
  | none => 0
  | some m => getNumberOfImports m typeOnly

/-! ## Module resolver (barrel.treeview.ts)

`extensionPriority` and the memoizing `resolveModulePath`
(barrel.treeview.ts lines 6-7 and 109-129).  The memoization table
`pathCache` is a module-level `Map` keyed by `path.join(baseDir,
moduleSpecifier)`; a stored `none` records a failed resolution
(`pathCache.set(cacheKey, undefined)`).  Nothing in the sources ever
clears this table. -/

/-- The fixed extension preference list of the sources. -/
def extensionPriority : List String := [".ts", ".tsx", ".d.ts", ".patch.ts"]

/-- The resolution memoization table: cache key to resolution outcome. -/
abbrev PathCache := List (String × Option String)

/-- Lookup in the path cache, distinguishing a stored miss (`some none`)
from an absent key (`none`). -/
def lookupPC : PathCache → String → Option (Option String)
  | [], _ => none
  | (k, v) :: rest, p => if k = p then some v else lookupPC rest p

/-- The candidate list of `resolveModulePath`: for each extension in
priority order, `join(baseDir, specifier + ext)` then
`join(baseDir, specifier, "index" + ext)`. -/
def possiblePaths (baseDir spec : String) : List String :=
  (extensionPriority.map fun ext =>
    [pathJoin baseDir (spec ++ ext), pathJoin (pathJoin baseDir spec) ("index" ++ ext)]).flatten

/-- Embedding of `resolveModulePath`: consult the memoization table first
(the cache key is `path.join(baseDir, moduleSpecifier)`), otherwise return
the first existing candidate and record the outcome. -/
def resolveModulePath (fs : FS) (c : PathCache) (baseDir spec : String) :
    Option String × PathCache :=
  match lookupPC c (pathJoin baseDir spec) with
  | some v => (v, c)
  | none =>
    match (possiblePaths baseDir spec).find? (fun p => fs.existsb p) with
    | some p => (some p, (pathJoin baseDir spec, some p) :: c)
    | none => (none, (pathJoin baseDir spec, none) :: c)

/-! ## Graph builder: forward expansion

`parseBarrel` (barrel.treeview.ts lines 131-157) reads the barrel file
(an unguarded `readFileSync`, hence `Except`), and for every top-level
export declaration with a string-literal module specifier resolves it via
`resolveModulePath` against the barrel's own directory, keeping the
resolved path when resolution succeeds.  The path cache is threaded
through in declaration order. -/

/-- Walk of the barrel's declarations, accumulating resolved export
targets and the updated path cache. -/
def parseBarrelAux (fs : FS) (dir : String) : Module → PathCache → List String × PathCache
  | [], c => ([], c)
  | .exportDecl (some spec) _ _ :: ds, c =>
    match resolveModulePath fs c dir spec with
    | (r, c2) =>
      match r, parseBarrelAux fs dir ds c2 with
      | some p, (es, c3) => (p :: es, c3)
      | none, rest => rest
  | _ :: ds, c => parseBarrelAux fs dir ds c

/-- Embedding of `parseBarrel` (the engine's `expandBarrel`): the ordered
resolved export targets of a barrel, or `Except.error` when the barrel
file itself cannot be read. -/
def parseBarrel (fs : FS) (c : PathCache) (fp : String) :
    Except Unit (List String × PathCache) :=
  match fs.read fp with
  | none => .error ()
  | some m => .ok (parseBarrelAux fs (dirname fp) m c)

/-! ## Graph builder: part_000's expansion

part_000's `getChildren` barrel branch (lines 229-253) re-reads the
barrel and, per export declaration with a module specifier, appends an
extension from the priority list only when the specifier does not already
end with ".ts" or ".tsx" (probing `join(dirname, spec + ext)`, with no
index probing), then keeps the target only if it exists right now.
No memoization table is consulted. -/

/-- Per-declaration walk of part_000's barrel expansion. -/
def expandDirectAux (fs : FS) (dir : String) : Module → List String
  | [] => []
  | .exportDecl (some spec) _ _ :: ds =>
    let exportPath :=
      if strEndsWith spec ".ts" || strEndsWith spec ".tsx" then spec
      else
        match extensionPriority.find? (fun ext => fs.existsb (pathJoin dir (spec ++ ext))) with
        | some ext => spec ++ ext
        | none => spec
    let full := pathJoin dir exportPath
    (if fs.existsb full then [full] else []) ++ expandDirectAux fs dir ds
  | _ :: ds => expandDirectAux fs dir ds

/-- Embedding of part_000's barrel expansion (`getChildren` on a barrel
item): existence is re-probed at query time, dangling targets are
dropped. -/
def expandBarrelDirect (fs : FS) (fp : String) : Except Unit (List String) :=
  match fs.read fp with
  | none => .error ()
  | some m => .ok (expandDirectAux fs (dirname fp) m)

/-! ## Directory trees

The recursive scans (`collectBarrelFiles`, `findFilesUsingBarrel`) walk a
directory with `fs.readdirSync`, recursing into subdirectories and
testing regular files.  A directory listing is embedded as a forest in
`readdirSync` order; a file's payload is its text for the textual
reverse-reference scan and its parsed module for barrel collection.  The
loop over a directory's entries becomes list recursion on the forest. -/

mutual

/-- A directory entry: a regular file with payload `α`, or a
subdirectory with its own listing. -/
inductive Tree (α : Type) where
  | file (name : String) (content : α)
  | dir (name : String) (children : Forest α)

/-- A directory listing in `readdirSync` order. -/
inductive Forest (α : Type) where
  | nil
  | cons (hd : Tree α) (tl : Forest α)

end

/-- All regular files of a forest rooted at directory `d`, as
(name, full path, payload) triples, in scan order. -/
def allFilesList {α : Type} : String → Forest α → List (String × String × α)
  | _, .nil => []
  | d, .cons (.file n c) ts => (n, pathJoin d n, c) :: allFilesList d ts
  | d, .cons (.dir n cs) ts => allFilesList (pathJoin d n) cs ++ allFilesList d ts

/-- The file test of `findFilesUsingBarrel` (barrel.treeview.ts lines
93-97): a ".ts" name whose text contains the target path wrapped in
single or in double quotes. -/
def fileSelected (bp name content : String) : Bool :=
  strEndsWith name ".ts" &&
    (containsSubstr content (squote ++ bp ++ squote) ||
      containsSubstr content (dquote ++ bp ++ dquote))

/-- Embedding of `findFilesUsingBarrel`'s `searchFiles` (barrel.treeview.ts
lines 88-100): every directory is entered, with no exclusions. -/
def findFilesUsingBarrel (bp : String) : String → Forest String → List String
  | _, .nil => []
  | d, .cons (.file n c) ts =>
    (if fileSelected bp n c then [pathJoin d n] else []) ++ findFilesUsingBarrel bp d ts
  | d, .cons (.dir n cs) ts =>
    findFilesUsingBarrel bp (pathJoin d n) cs ++ findFilesUsingBarrel bp d ts

/-- Modelled from the spec: the reverse scan as §4.5 describes it, with
"directories named for package/dependency storage (e.g., node_modules)
and hidden directories excluded"; the file test is unchanged.  This
definition follows the spec's words (the exclusions are absent from
`findFilesUsingBarrel` in the source) and exists only to be compared with
the embedding of the source. -/
def findReferencingModulesSpecModel (bp : String) : String → Forest String → List String
  | _, .nil => []
  | d, .cons (.file n c) ts =>
    (if fileSelected bp n c then [pathJoin d n] else []) ++
      findReferencingModulesSpecModel bp d ts
  | d, .cons (.dir n cs) ts =>
    (if n = "node_modules" ∨ n.data.head? = some '.' then []
     else findReferencingModulesSpecModel bp (pathJoin d n) cs) ++
      findReferencingModulesSpecModel bp d ts

/-- Embedding of `collectBarrelFiles` (barrel.treeview.ts lines 59-71 and
part_001 lines 243-255): recurse into every directory; for a regular
file whose name ends with "index.ts" (a suffix test, not equality), call
`parseBarrel` and push the result — `parseBarrel` returns an object, so
the `if (barrelFile)` guard in the source always passes.  The path cache
is threaded through in scan order, and a `parseBarrel` failure
propagates. -/
def collectBarrelFiles (fs : FS) :
    String → PathCache → Forest Module → Except Unit (List (String × List String) × PathCache)
  | _, c, .nil => .ok ([], c)
  | d, c, .cons (.file n _) ts =>
    if strEndsWith n "index.ts" then
      match parseBarrel fs c (pathJoin d n) with
      | .error e => .error e
      | .ok (es, c2) =>
        match collectBarrelFiles fs d c2 ts with
        | .error e => .error e
        | .ok (rest, c3) => .ok ((pathJoin d n, es) :: rest, c3)
    else collectBarrelFiles fs d c ts
  | d, c, .cons (.dir n cs) ts =>
    match collectBarrelFiles fs (pathJoin d n) c cs with
    | .error e => .error e
    | .ok (r1, c2) =>
      match collectBarrelFiles fs d c2 ts with
      | .error e => .error e
      | .ok (r2, c3) => .ok (r1 ++ r2, c3)

/-! ## Concrete data for the scenarios

The spec's §8 scenario: a directory `pkg/` with `a.ts`
(`export const a = 1;`), `b.ts` (`export type B = number;`), and the
barrel `index.ts` (`export * from "./a"; export type { B } from "./b";`),
followed by a deletion of `pkg/a.ts`. -/

/-- The parsed barrel of the pkg scenario. -/
def pkgIndexModule : Module :=
  [.exportDecl (some "./a") none false, .exportDecl (some "./b") (some 1) true]

/-- The disk before any event: the three files of the pkg scenario. -/
def pkgFS0 : FS :=
  ⟨[("pkg/a.ts", [.exportedOther]), ("pkg/b.ts", [.exportedTypeAlias]),
    ("pkg/index.ts", pkgIndexModule)]⟩

/-- The disk after `pkg/a.ts` is deleted. -/
def pkgFS1 : FS := removeFile pkgFS0 "pkg/a.ts"

/-- The resolution memoization table after one `expandBarrel` query on
`pkgFS0` from an empty table (newest entry first). -/
def pkgCache1 : PathCache := [("pkg/b", some "pkg/b.ts"), ("pkg/a", some "pkg/a.ts")]

/-- A disk holding only `base/a.ts`, for the extension-suffixed-specifier
resolution claims. -/
def fsA : FS := ⟨[("base/a.ts", [])]⟩

/-- A disk holding both `b/x.ts` and `b/x.d.ts`, the ambiguity input of
the extension-priority claim. -/
def fs4 : FS := ⟨[("b/x.ts", []), ("b/x.d.ts", [])]⟩

/-- A workspace whose only module sits inside a `node_modules` directory
and references the target path `T` in single quotes. -/
def t9 : Forest String :=
  .cons (.dir "node_modules"
    (.cons (.file "x.ts" ("import a from " ++ squote ++ "T" ++ squote)) .nil)) .nil

/-- A barrel module re-exporting `./m`. -/
def mBarrel : Module := [.exportDecl (some "./m") none false]

/-- A workspace listing containing `myindex.ts` (a barrel whose name is
not exactly `index.ts`) next to its target `m.ts`. -/
def ws10 : Forest Module := .cons (.file "myindex.ts" mBarrel) (.cons (.file "m.ts" []) .nil)

/-- The flat disk corresponding to `ws10` under the root `w`. -/
def fs10 : FS := ⟨[("w/myindex.ts", mBarrel), ("w/m.ts", [])]⟩

/-- Consistency of the resolution memoization table with the disk: every
memoized successful resolution still names an existing file. -/
def cacheOk (fs : FS) (c : PathCache) : Prop :=
  ∀ k p, (k, some p) ∈ c → fs.existsb p = true

/-! ## Helper lemmas -/

theorem stripDotSlash_dotslash (s : String) : stripDotSlash ("./" ++ s) = s := rfl

theorem pathJoin_dotslash (b s : String) : pathJoin b ("./" ++ s) = b ++ "/" ++ s := by
  unfold pathJoin
  rw [stripDotSlash_dotslash]

theorem str_append_right_ne {a b c : String} (h : b.length ≠ c.length) :
    a ++ b ≠ a ++ c := by
  intro he
  exact h (by have hl := congrArg String.length he; simp only [String.length_append] at hl; omega)

theorem lookupPC_mem : ∀ {c : PathCache} {k : String} {v : Option String},
    lookupPC c k = some v → (k, v) ∈ c
  | [], _, _, h => by simp [lookupPC] at h
  | (a, b) :: rest, k, v, h => by
    by_cases hak : a = k
    · subst hak
      simp [lookupPC] at h
      subst h
      exact List.mem_cons_self _ _
    · simp only [lookupPC, if_neg hak] at h
      exact List.mem_cons_of_mem _ (lookupPC_mem h)

theorem lookupSyn_eraseSyn : ∀ (c : SynCache) (p : String), lookupSyn (eraseSyn c p) p = none
  | [], _ => rfl
  | (k, v) :: rest, p => by
    by_cases h : k = p
    · simp [eraseSyn, List.filter_cons, h]
      simpa [eraseSyn] using lookupSyn_eraseSyn rest p
    · simp only [eraseSyn, List.filter_cons, decide_not, h, decide_False, Bool.not_false,
        if_true]
      simp only [lookupSyn, if_neg h]
      simpa [eraseSyn] using lookupSyn_eraseSyn rest p

theorem nonbearing_contributes_nothing {d : Decl} (h : isExportBearing d = false) :
    (∀ t, declExportCount t d = 0) ∧ exportBucketsOf d = ([], []) ∧
      isExportDeclB d = false ∧ isReExportFrom d = false := by
  cases d <;> simp_all [isExportBearing, declExportCount, exportBucketsOf, isExportDeclB,
    isReExportFrom]

theorem getExportSymbolCounts_append (l1 l2 : Module) :
    getExportSymbolCounts (l1 ++ l2) =
      ((getExportSymbolCounts l1).1 ++ (getExportSymbolCounts l2).1,
        (getExportSymbolCounts l1).2 ++ (getExportSymbolCounts l2).2) := by
  induction l1 with
  | nil => simp [getExportSymbolCounts]
  | cons d ds ih => simp [getExportSymbolCounts, List.foldr_cons] at ih ⊢; rw [ih]; simp

theorem getExportSymbolCounts_nonbearing {l : Module}
    (h : ∀ d ∈ l, isExportBearing d = false) : getExportSymbolCounts l = ([], []) := by
  induction l with
  | nil => rfl
  | cons d ds ih =>
    have hd := (nonbearing_contributes_nothing (h d (List.mem_cons_self _ _))).2.1
    have hds := ih (fun x hx => h x (List.mem_cons_of_mem _ hx))
    show ((exportBucketsOf d).1 ++ (getExportSymbolCounts ds).1,
      (exportBucketsOf d).2 ++ (getExportSymbolCounts ds).2) = ([], [])
    rw [hd, hds]
    rfl

theorem getNumberOfExports_nonbearing {l : Module}
    (h : ∀ d ∈ l, isExportBearing d = false) (t : Bool) : getNumberOfExports l t = 0 := by
  unfold getNumberOfExports
  refine List.sum_eq_zero ?_
  intro x hx
  obtain ⟨d, hd, rfl⟩ := List.mem_map.mp hx
  exact (nonbearing_contributes_nothing (h d hd)).1 t

theorem find?_congr_fun {α : Type} {f g : α → Bool} (hfg : ∀ a, f a = g a) :
    ∀ l : List α, l.find? f = l.find? g
  | [] => rfl
  | a :: l => by
    rw [List.find?_cons, List.find?_cons, hfg a]
    cases g a <;> simp [find?_congr_fun hfg l]

theorem existsb_perm {fs fs' : FS} (h : fs.files.Perm fs'.files) (p : String) :
    FS.existsb fs' p = FS.existsb fs p := by
  unfold FS.existsb
  exact Bool.eq_iff_iff.mpr (by simp only [List.any_eq_true]; exact ⟨fun ⟨x, hx, hp⟩ =>
    ⟨x, h.mem_iff.mpr hx, hp⟩, fun ⟨x, hx, hp⟩ => ⟨x, h.mem_iff.mp hx, hp⟩⟩)

theorem resolveModulePath_sound (fs : FS) (c : PathCache) (dir spec : String)
    (hok : cacheOk fs c) :
    (∀ p, (resolveModulePath fs c dir spec).1 = some p → fs.existsb p = true) ∧
      cacheOk fs (resolveModulePath fs c dir spec).2 := by
  unfold resolveModulePath
  cases hl : lookupPC c (pathJoin dir spec) with
  | some v =>
    constructor
    · intro p hp
      have hp2 : v = some p := hp
      exact hok _ p (hp2 ▸ lookupPC_mem hl)
    · exact hok
  | none =>
    cases hf : (possiblePaths dir spec).find? (fun p => fs.existsb p) with
    | some p =>
      constructor
      · intro q hq
        have hq2 : some p = some q := hq
        cases hq2
        exact List.find?_some hf
      · intro k q hmem
        have hmem2 : (k, some q) ∈ (pathJoin dir spec, some p) :: c := hmem
        rcases List.mem_cons.mp hmem2 with h1 | h2
        · injection h1 with hk hv
          injection hv with hv2
          subst hv2
          exact List.find?_some hf
        · exact hok k q h2
    | none =>
      constructor
      · intro q hq
        have hq2 : (none : Option String) = some q := hq
        cases hq2
      · intro k q hmem
        have hmem2 : (k, some q) ∈ (pathJoin dir spec, none) :: c := hmem
        rcases List.mem_cons.mp hmem2 with h1 | h2
        · injection h1 with hk hv
          exact Option.noConfusion hv
        · exact hok k q h2

theorem parseBarrelAux_sound (fs : FS) (dir : String) (m : Module) :
    ∀ (c : PathCache), cacheOk fs c →
      (∀ e ∈ (parseBarrelAux fs dir m c).1, fs.existsb e = true) ∧
        cacheOk fs (parseBarrelAux fs dir m c).2 := by
  induction m with
  | nil => exact fun c hok => ⟨fun e he => absurd he (List.not_mem_nil e), hok⟩
  | cons d ds ih =>
    intro c hok
    cases d with
    | exportDecl sp named t =>
      cases sp with
      | none => simpa only [parseBarrelAux] using ih c hok
      | some s =>
        have hres := resolveModulePath_sound fs c dir s hok
        rcases hr : resolveModulePath fs c dir s with ⟨r, c2⟩
        rw [hr] at hres
        have hrec := ih c2 hres.2
        rcases ha : parseBarrelAux fs dir ds c2 with ⟨es, c3⟩
        rw [ha] at hrec
        simp only [parseBarrelAux, hr, ha]
        cases r with
        | some p =>
          refine ⟨fun e he => ?_, hrec.2⟩
          rcases List.mem_cons.mp he with rfl | hm
          · exact hres.1 e rfl
          · exact hrec.1 e hm
        | none => exact hrec
    | exportAssignment => simpa only [parseBarrelAux] using ih c hok
    | exportedEnum => simpa only [parseBarrelAux] using ih c hok
    | exportedTypeAlias => simpa only [parseBarrelAux] using ih c hok
    | exportedInterface => simpa only [parseBarrelAux] using ih c hok
    | exportedOther => simpa only [parseBarrelAux] using ih c hok
    | importDecl t => simpa only [parseBarrelAux] using ih c hok
    | importEquals => simpa only [parseBarrelAux] using ih c hok
    | stmtOther => simpa only [parseBarrelAux] using ih c hok

/-! ## Claim C1: barrel detection -/

/-- C1, counterexample.  The claim's "iff" fails on part_000's
`checkBarrelFile`: a cached module whose only declaration is a named
export without a module specifier (`export { a };`) has no
re-export-from declaration naming a source module, yet part_000's
detector, which tests only `ts.isExportDeclaration(node)`, reports it as
a barrel. -/
theorem c1_isBarrel_counterexample :
    checkBarrelFileCached [("x.ts", [Decl.exportDecl none (some 1) false])] "x.ts" = true ∧
      [Decl.exportDecl none (some 1) false].any isReExportFrom = false := by
  exact ⟨rfl, rfl⟩

/-- C1, amended.  part_001's `checkBarrelFile` returns true iff the
parsed module has a top-level export declaration with a module specifier
(the claim's iff); part_000's `checkBarrelFile` returns true iff the
cached record has any top-level export declaration, with or without a
module specifier, and false when the record is absent; both return false
for every module with zero export-bearing declarations. -/
theorem c1_isBarrel_amended :
    (∀ (fs : FS) (p : String) (m : Module), fs.read p = some m →
      (checkBarrelFile fs p = .ok true ↔ ∃ d ∈ m, isReExportFrom d = true)) ∧
    (∀ (c : SynCache) (p : String) (m : Module), lookupSyn c p = some m →
      (checkBarrelFileCached c p = true ↔ ∃ d ∈ m, isExportDeclB d = true)) ∧
    (∀ (c : SynCache) (p : String) (m : Module), lookupSyn c p = some m →
      (∀ d ∈ m, isExportBearing d = false) → checkBarrelFileCached c p = false) ∧
    (∀ (fs : FS) (p : String) (m : Module), fs.read p = some m →
      (∀ d ∈ m, isExportBearing d = false) → checkBarrelFile fs p = .ok false) := by
  refine ⟨fun fs p m h => ?_, fun c p m h => ?_, fun c p m h hnb => ?_, fun fs p m h hnb => ?_⟩
  · simp [checkBarrelFile, h, List.any_eq_true]
  · simp [checkBarrelFileCached, h, List.any_eq_true]
  · simp only [checkBarrelFileCached, h]
    simp only [List.any_eq_false]
    intro d hd
    simp [(nonbearing_contributes_nothing (hnb d hd)).2.2.1]
  · simp only [checkBarrelFile, h, Except.ok.injEq]
    simp only [List.any_eq_false]
    intro d hd
    simp [(nonbearing_contributes_nothing (hnb d hd)).2.2.2]

/-- C1, witness for the amended theorem: the pkg barrel is detected by
both detectors, and a module of plain imports is a barrel for neither. -/
theorem c1_isBarrel_witness :
    checkBarrelFile pkgFS0 "pkg/index.ts" = .ok true ∧
      checkBarrelFileCached [("i.ts", [Decl.importDecl false])] "i.ts" = false := by
  constructor
  · exact (c1_isBarrel_amended.1 pkgFS0 "pkg/index.ts" pkgIndexModule rfl).mpr
      ⟨Decl.exportDecl (some "./a") none false, by simp [pkgIndexModule], rfl⟩
  · exact c1_isBarrel_amended.2.2.1 [("i.ts", [Decl.importDecl false])] "i.ts"
      [Decl.importDecl false] rfl (by intro d hd; simp at hd; subst hd; rfl)

/-! ## Claim C2: expandBarrel and on-disk existence -/

/-- C2, counterexample.  A reachable engine trace violating the claim:
from the pkg scenario's disk and an empty memoization table, one
`expandBarrel` query memoizes both resolutions (producing `pkgCache1`);
`pkg/a.ts` is then deleted — the file-watch handlers of
`BarrelFilesProvider` only fire `refresh()` and never touch `pathCache` —
and the next `expandBarrel` query still returns the entry `pkg/a.ts`,
which no longer exists on disk. -/
theorem c2_expandBarrel_counterexample :
    parseBarrel pkgFS0 [] "pkg/index.ts" = .ok (["pkg/a.ts", "pkg/b.ts"], pkgCache1) ∧
      parseBarrel pkgFS1 pkgCache1 "pkg/index.ts" = .ok (["pkg/a.ts", "pkg/b.ts"], pkgCache1) ∧
      FS.existsb pkgFS1 "pkg/a.ts" = false := by
  exact ⟨rfl, rfl, rfl⟩

/-- C2, amended.  `expandBarrel` returns only entries that exist on disk
provided every memoized successful resolution in the path cache still
names an existing file (in particular from an empty or freshly rebuilt
cache); since no event handler ever invalidates the path cache, the
guarantee is conditional on that consistency rather than holding in every
reachable state. -/
theorem c2_expandBarrel_amended (fs : FS) (c : PathCache) (bp : String)
    (es : List String) (c2 : PathCache) (hok : cacheOk fs c)
    (h : parseBarrel fs c bp = .ok (es, c2)) :
    ∀ e ∈ es, fs.existsb e = true := by
  unfold parseBarrel at h
  cases hread : fs.read bp with
  | none => rw [hread] at h; exact absurd h (by simp)
  | some m =>
    rw [hread] at h
    have h2 : parseBarrelAux fs (dirname bp) m c = (es, c2) := by
      injection h with h3
    have := (parseBarrelAux_sound fs (dirname bp) m c hok).1
    rw [h2] at this
    exact this

/-- C2, witness: the amended theorem applied to the pkg scenario's first
query, from the empty (hence consistent) cache. -/
theorem c2_expandBarrel_witness :
    FS.existsb pkgFS0 "pkg/a.ts" = true ∧ FS.existsb pkgFS0 "pkg/b.ts" = true := by
  have h := c2_expandBarrel_amended pkgFS0 [] "pkg/index.ts" ["pkg/a.ts", "pkg/b.ts"]
    pkgCache1 (fun k p hp => absurd hp (List.not_mem_nil _)) rfl
  exact ⟨h "pkg/a.ts" (by simp), h "pkg/b.ts" (by simp)⟩

/-! ## Claim C3: the mutation entry points -/

/-- C3, counterexample.  In the spec's pkg scenario, after the deletion
of `pkg/a.ts` the memoized `expandBarrel` of `BarrelFilesProvider` does
not yield only the `pkg/b.ts` entry: the resolution memoization table was
not re-synchronized by `onDeleted`, so the stale `pkg/a.ts` entry is
still returned. -/
theorem c3_onDeleted_counterexample :
    parseBarrel pkgFS1 pkgCache1 "pkg/index.ts" = .ok (["pkg/a.ts", "pkg/b.ts"], pkgCache1) ∧
      (["pkg/a.ts", "pkg/b.ts"] : List String) ≠ ["pkg/b.ts"] := by
  exact ⟨rfl, by decide⟩

/-- C3, amended.  The mutation entry points re-synchronize the Syntax
Cache only: `onDeleted` removes the record
(`removeSourceFileFromCache`) and `onCreated`/`onChanged` re-parse
(`cacheSourceFile`), while no entry point touches the resolution
memoization table.  In the pkg scenario after `onDeleted("pkg/a.ts")`,
part_000's expansion — which re-probes existence at query time — yields
only the entry resolving to `pkg/b.ts`, dropping the dangling edge
without an error; the memoized `expandBarrel` of `BarrelFilesProvider`
instead keeps the stale entry. -/
theorem c3_onDeleted_amended :
    (∀ (c : SynCache) (p : String), lookupSyn (removeSourceFileFromCache c p) p = none) ∧
    (∀ (fs : FS) (c : SynCache) (p : String) (m : Module), fs.read p = some m →
      lookupSyn (cacheSourceFile fs c p) p = some m) ∧
    expandBarrelDirect pkgFS1 "pkg/index.ts" = .ok ["pkg/b.ts"] := by
  refine ⟨fun c p => lookupSyn_eraseSyn c p, fun fs c p m h => ?_, rfl⟩
  simp [cacheSourceFile, h, lookupSyn]

/-- C3, witness for the amended theorem: re-parsing `pkg/b.ts` stores its
current parse in the Syntax Cache. -/
theorem c3_onDeleted_witness :
    lookupSyn (cacheSourceFile pkgFS0 [] "pkg/b.ts") "pkg/b.ts" =
      some [Decl.exportedTypeAlias] := by
  exact c3_onDeleted_amended.2.1 pkgFS0 [] "pkg/b.ts" [Decl.exportedTypeAlias] rfl

/-! ## Claim C4: extension priority -/

/-- C4.  Resolution is deterministic and priority-respecting: whenever a
fresh resolution of the specifier `./x` finds both `x.ts` and `x.d.ts`
under the base directory, `resolveModulePath` returns the path built with
the plain source extension ".ts" — the first entry of the fixed priority
list — and never the one built with the declaration-only extension
".d.ts"; and the outcome is unchanged under any permutation of the
file-system enumeration. -/
theorem c4_extension_priority (fs : FS) (c : PathCache) (base x : String)
    (hc : lookupPC c (pathJoin base ("./" ++ x)) = none)
    (h1 : fs.existsb (pathJoin base ("./" ++ (x ++ ".ts"))) = true)
    (h2 : fs.existsb (pathJoin base ("./" ++ (x ++ ".d.ts"))) = true) :
    (resolveModulePath fs c base ("./" ++ x)).1 =
        some (pathJoin base ("./" ++ (x ++ ".ts"))) ∧
      (resolveModulePath fs c base ("./" ++ x)).1 ≠
        some (pathJoin base ("./" ++ (x ++ ".d.ts"))) ∧
      ∀ fs' : FS, fs.files.Perm fs'.files →
        (resolveModulePath fs' c base ("./" ++ x)).1 =
          (resolveModulePath fs c base ("./" ++ x)).1 := by
  have hmain : (resolveModulePath fs c base ("./" ++ x)).1 =
      some (pathJoin base ("./" ++ (x ++ ".ts"))) := by
    rw [← String.append_assoc] at h1
    unfold resolveModulePath
    rw [hc]
    simp only [possiblePaths, extensionPriority, List.map_cons, List.map_nil,
      List.flatten_cons, List.flatten_nil, List.append_nil, List.cons_append,
      List.nil_append]
    rw [List.find?_cons_of_pos _ h1]
    show some (pathJoin base (("./" ++ x) ++ ".ts")) =
      some (pathJoin base ("./" ++ (x ++ ".ts")))
    rw [String.append_assoc]
  have hne : pathJoin base ("./" ++ (x ++ ".ts")) ≠ pathJoin base ("./" ++ (x ++ ".d.ts")) := by
    rw [pathJoin_dotslash, pathJoin_dotslash]
    refine str_append_right_ne ?_
    simp only [String.length_append]
    have e3 : (".ts" : String).length = 3 := rfl
    have e5 : (".d.ts" : String).length = 5 := rfl
    omega
  refine ⟨hmain, by rw [hmain]; simp only [ne_eq, Option.some.injEq]; exact hne, ?_⟩
  intro fs' hperm
  have hex : (fun p => FS.existsb fs' p) = (fun p => FS.existsb fs p) :=
    funext (existsb_perm hperm)
  unfold resolveModulePath
  rw [hc, hex]

/-- C4, witness: the ambiguity disk `fs4` holding both `b/x.ts` and
`b/x.d.ts` resolves `./x` to `b/x.ts`. -/
theorem c4_extension_priority_witness :
    (resolveModulePath fs4 [] "b" ("./" ++ "x")).1 =
      some (pathJoin "b" ("./" ++ ("x" ++ ".ts"))) := by
  exact (c4_extension_priority fs4 [] "b" "x" rfl rfl rfl).1

/-! ## Claim C5: the resolution algorithm on extension-suffixed and
directory-style specifiers -/

/-- C5, counterexample.  The claim says a specifier that already ends
with a recognized source extension is tested for direct existence, so
`./a.ts` resolves to an existing `a.ts`.  `resolveModulePath` never
probes `join(baseDir, specifier)` itself — only `specifier + ext` and
`specifier/index + ext` — so on a disk holding exactly `base/a.ts` the
specifier `./a.ts` fails to resolve even though the joined path exists. -/
theorem c5_direct_existence_counterexample :
    (resolveModulePath fsA [] "base" "./a.ts").1 = none ∧
      FS.existsb fsA (pathJoin "base" "./a.ts") = true := by
  exact ⟨rfl, rfl⟩

/-- C5, amended.  `resolveModulePath` probes, per extension in priority
order, `specifier + ext` and then `specifier/index + ext`, and never the
bare `join(baseDirectory, specifier)`: when every candidate is absent the
resolution fails even if the bare joined path exists.  Directory-style
specifiers are indeed probed as `specifier/index<ext>`.  The direct
existence test for specifiers already ending in a recognized source
extension is performed not by the resolver but by part_000's barrel
expansion, which skips extension probing for them and tests
`join(dirname, specifier)` directly. -/
theorem c5_resolution_algorithm_amended :
    (∀ (fs : FS) (c : PathCache) (b s : String),
      lookupPC c (pathJoin b s) = none →
      fs.existsb (pathJoin b s) = true →
      (∀ p ∈ possiblePaths b s, fs.existsb p = false) →
      (resolveModulePath fs c b s).1 = none) ∧
    (∀ (fs : FS) (c : PathCache) (b s : String),
      lookupPC c (pathJoin b s) = none →
      fs.existsb (pathJoin b (s ++ ".ts")) = false →
      fs.existsb (pathJoin (pathJoin b s) ("index" ++ ".ts")) = true →
      (resolveModulePath fs c b s).1 =
        some (pathJoin (pathJoin b s) ("index" ++ ".ts"))) ∧
    (∀ (fs : FS) (dir s : String) (k : Option Nat) (t : Bool) (ds : Module),
      strEndsWith s ".ts" = true →
      fs.existsb (pathJoin dir s) = true →
      expandDirectAux fs dir (.exportDecl (some s) k t :: ds) =
        pathJoin dir s :: expandDirectAux fs dir ds) := by
  refine ⟨fun fs c b s hc hdirect hall => ?_, fun fs c b s hc hm1 hm2 => ?_,
    fun fs dir s k t ds hends hx => ?_⟩
  · unfold resolveModulePath
    rw [hc]
    rw [List.find?_eq_none.mpr (fun p hp => by simp [hall p hp])]
  · unfold resolveModulePath
    rw [hc]
    simp only [possiblePaths, extensionPriority, List.map_cons, List.map_nil,
      List.flatten_cons, List.flatten_nil, List.append_nil, List.cons_append,
      List.nil_append]
    rw [List.find?_cons_of_neg _ (by simp [hm1]), List.find?_cons_of_pos _ hm2]
  · simp only [expandDirectAux, hends, Bool.true_or, if_true, hx, List.singleton_append]

/-- C5, witness for the amended theorem: part_000's expansion of a
declaration with the extension-suffixed specifier `./a.ts` tests direct
existence and keeps the target. -/
theorem c5_resolution_algorithm_witness :
    expandDirectAux fsA "base" [Decl.exportDecl (some "./a.ts") none false] = ["base/a.ts"] := by
  rw [c5_resolution_algorithm_amended.2.2 fsA "base" "./a.ts" none false [] rfl rfl]
  rfl

/-! ## Claim C6: type-only named re-exports -/

/-- C6.  For a module whose only export-bearing declaration is one
re-export-with-named-list declaration of `N` members marked type-only,
the classifier attributes all `N` units to the type bucket and none to
the value bucket (`getNumberOfExports` with `typeOnly = true` reports
`N`, with `typeOnly = false` reports 0, and `getExportSymbolCounts`
yields an empty value array and the type array `[N]`), while the import
statistics are unaffected by the declaration. -/
theorem c6_type_only_named_reexport (pre post : Module) (s : String) (N : Nat)
    (h : ∀ d ∈ pre ++ post, isExportBearing d = false) :
    getNumberOfExports (pre ++ [.exportDecl (some s) (some N) true] ++ post) true = N ∧
      getNumberOfExports (pre ++ [.exportDecl (some s) (some N) true] ++ post) false = 0 ∧
      (getExportSymbolCounts (pre ++ [.exportDecl (some s) (some N) true] ++ post)).1 = [] ∧
      (getExportSymbolCounts (pre ++ [.exportDecl (some s) (some N) true] ++ post)).2 = [N] ∧
      ∀ t, getNumberOfImports (pre ++ [.exportDecl (some s) (some N) true] ++ post) t =
        getNumberOfImports (pre ++ post) t := by
  have hpre : ∀ d ∈ pre, isExportBearing d = false :=
    fun d hd => h d (List.mem_append.mpr (Or.inl hd))
  have hpost : ∀ d ∈ post, isExportBearing d = false :=
    fun d hd => h d (List.mem_append.mpr (Or.inr hd))
  have hbpre := getExportSymbolCounts_nonbearing hpre
  have hbpost := getExportSymbolCounts_nonbearing hpost
  refine ⟨?_, ?_, ?_, ?_, ?_⟩
  · have e1 : (pre.map (declExportCount true)).sum = 0 := getNumberOfExports_nonbearing hpre true
    have e2 : (post.map (declExportCount true)).sum = 0 := getNumberOfExports_nonbearing hpost true
    simp [getNumberOfExports, List.map_append, List.sum_append, declExportCount]
    omega
  · have e1 : (pre.map (declExportCount false)).sum = 0 := getNumberOfExports_nonbearing hpre false
    have e2 : (post.map (declExportCount false)).sum = 0 := getNumberOfExports_nonbearing hpost false
    simp [getNumberOfExports, List.map_append, List.sum_append, declExportCount]
    omega
  · rw [getExportSymbolCounts_append, getExportSymbolCounts_append, hbpre, hbpost]
    rfl
  · rw [getExportSymbolCounts_append, getExportSymbolCounts_append, hbpre, hbpost]
    rfl
  · intro t
    simp [getNumberOfImports, List.map_append, List.sum_append, declImportCount]

/-- C6, witness: a module with one surrounding import, the type-only
named re-export of three members, and a trailing plain statement. -/
theorem c6_type_only_named_reexport_witness :
    getNumberOfExports
        [.importDecl false, .exportDecl (some "./x") (some 3) true, .stmtOther] true = 3 ∧
      getNumberOfExports
        [.importDecl false, .exportDecl (some "./x") (some 3) true, .stmtOther] false = 0 ∧
      getNumberOfImports
          [.importDecl false, .exportDecl (some "./x") (some 3) true, .stmtOther] false =
        getNumberOfImports [.importDecl false, .stmtOther] false := by
  have h := c6_type_only_named_reexport [.importDecl false] [.stmtOther] "./x" 3 (by decide)
  exact ⟨h.1, h.2.1, h.2.2.2.2 false⟩

/-! ## Claim C7: modifier-based exports -/

/-- C7, counterexample.  For a module whose only declaration is an
exported enum, the claim places the one unit in the value bucket; but
`getNumberOfExports` — whose modifier branch computes
`isType = isTypeAliasDeclaration || isInterfaceDeclaration ||
isEnumDeclaration` — reports 0 on the value side and 1 on the type-only
side for that module. -/
theorem c7_modifier_export_counterexample :
    getNumberOfExports [Decl.exportedEnum] false = 0 ∧
      getNumberOfExports [Decl.exportedEnum] true = 1 := by
  exact ⟨rfl, rfl⟩

/-- C7, amended.  Every modifier-based export contributes exactly one
unit, but the two classifiers bucket an exported enum differently: in
`getExportSymbolCounts` (via `handleExportKeyword`) enum and other
runtime-producing declarations go to the value bucket and
type-alias/interface declarations to the type bucket, exactly as the
claim states; in `getNumberOfExports`, however, an exported enum is
counted on the type-only side together with type aliases and
interfaces. -/
theorem c7_modifier_export_amended :
    getExportSymbolCounts [Decl.exportedEnum] = ([1], []) ∧
      getExportSymbolCounts [Decl.exportedOther] = ([1], []) ∧
      getExportSymbolCounts [Decl.exportedTypeAlias] = ([], [1]) ∧
      getExportSymbolCounts [Decl.exportedInterface] = ([], [1]) ∧
      getNumberOfExports [Decl.exportedTypeAlias] true = 1 ∧
      getNumberOfExports [Decl.exportedInterface] true = 1 ∧
      getNumberOfExports [Decl.exportedOther] false = 1 ∧
      getNumberOfExports [Decl.exportedEnum] true = 1 ∧
      getNumberOfExports [Decl.exportedEnum] false = 0 := by
  exact ⟨rfl, rfl, rfl, rfl, rfl, rfl, rfl, rfl, rfl⟩

/-! ## Claim C8: absent, unreadable and stale records -/

/-- C8, counterexample.  The claim says no such condition is ever raised
to the caller of any engine query; but `parseBarrel` in
barrel.treeview.ts reads the barrel file without a guard, so an
`expandBarrel` query on a nonexistent path propagates the read failure
(the `Except.error` models the uncaught `readFileSync` exception). -/
theorem c8_absent_record_counterexample :
    parseBarrel ⟨[]⟩ [] "missing.ts" = .error () ∧
      FS.read ⟨[]⟩ "missing.ts" = none := by
  exact ⟨rfl, rfl⟩

/-- C8, amended.  The Syntax Cache's parse request (`cacheSourceFile`)
behaves as claimed: on a failed read it removes any stale record for the
path and afterwards reports absence, and every cache-based query treats
an absent record as zero known facts (`checkBarrelFileCached` is false,
both export and import counts are 0).  The no-exception guarantee,
however, does not extend to `parseBarrel` in barrel.treeview.ts, whose
unguarded read raises on a nonexistent path. -/
theorem c8_absent_record_amended :
    (∀ (fs : FS) (c : SynCache) (p : String), fs.read p = none →
      cacheSourceFile fs c p = eraseSyn c p ∧
        lookupSyn (cacheSourceFile fs c p) p = none) ∧
    (∀ (c : SynCache) (p : String) (t : Bool), lookupSyn c p = none →
      checkBarrelFileCached c p = false ∧ getNumberOfExportsCached c p t = 0 ∧
        getNumberOfImportsCached c p t = 0) ∧
    (∀ (fs : FS) (c : PathCache) (p : String), fs.read p = none →
      parseBarrel fs c p = .error ()) := by
  refine ⟨fun fs c p h => ?_, fun c p t h => ?_, fun fs c p h => ?_⟩
  · refine ⟨by simp [cacheSourceFile, h], ?_⟩
    simp only [cacheSourceFile, h]
    exact lookupSyn_eraseSyn c p
  · exact ⟨by simp [checkBarrelFileCached, h], by simp [getNumberOfExportsCached, h],
      by simp [getNumberOfImportsCached, h]⟩
  · simp [parseBarrel, h]

/-- C8, witness: after the deletion of `pkg/a.ts`, a parse request for it
against a cache still holding its stale record removes the record and
reports absence. -/
theorem c8_absent_record_witness :
    lookupSyn (cacheSourceFile pkgFS1 [("pkg/a.ts", [Decl.exportedOther])] "pkg/a.ts")
      "pkg/a.ts" = none := by
  exact (c8_absent_record_amended.1 pkgFS1 [("pkg/a.ts", [Decl.exportedOther])]
    "pkg/a.ts" rfl).2

/-! ## Claim C9: the reverse-reference scan -/

/-- C9, counterexample.  The claim says the recursive scan excludes
package-dependency directories such as `node_modules` and hidden
directories; `findFilesUsingBarrel` enters every directory, so a module
inside `node_modules` that quotes the target path is returned, whereas
the scan described by the spec (modelled by
`findReferencingModulesSpecModel`) returns nothing on the same tree. -/
theorem c9_reverse_scan_counterexample :
    findFilesUsingBarrel "T" "root" t9 = ["root/node_modules/x.ts"] ∧
      findReferencingModulesSpecModel "T" "root" t9 = [] := by
  exact ⟨rfl, rfl⟩

/-- C9, amended.  `findFilesUsingBarrel` returns exactly the files under
the scanned root whose name ends with ".ts" and whose text contains the
resolved target path wrapped in single or double quotes, scanning every
directory recursively with no exclusions — `node_modules` and hidden
directories included. -/
theorem c9_reverse_scan_amended (bp : String) :
    ∀ (d : String) (ts : Forest String),
      findFilesUsingBarrel bp d ts =
        ((allFilesList d ts).filter fun e => fileSelected bp e.1 e.2.2).map fun e => e.2.1
  | _, .nil => rfl
  | d, .cons (.file n c) ts => by
    simp only [findFilesUsingBarrel, allFilesList, List.filter_cons]
    cases hsel : fileSelected bp n c with
    | true => simp [c9_reverse_scan_amended bp d ts]
    | false => simp [c9_reverse_scan_amended bp d ts]
  | d, .cons (.dir n cs) ts => by
    simp only [findFilesUsingBarrel, allFilesList, List.filter_append, List.map_append,
      c9_reverse_scan_amended bp (pathJoin d n) cs, c9_reverse_scan_amended bp d ts]

/-! ## Claim C10: barrel discovery by name suffix -/

/-- C10.  Barrel discovery selects candidates with the suffix test
`endsWith("index.ts")`, not exact-name equality: in the workspace `ws10`
the file `myindex.ts` — whose name is not `index.ts` but ends with it —
is parsed and listed as a barrel with its re-export target resolved to
`w/m.ts`. -/
theorem c10_suffix_selection :
    strEndsWith "myindex.ts" "index.ts" = true ∧
      ("myindex.ts" : String) ≠ "index.ts" ∧
      collectBarrelFiles fs10 "w" [] ws10 =
        .ok ([("w/myindex.ts", ["w/m.ts"])], [("w/m", some "w/m.ts")]) := by
  exact ⟨rfl, by decide, rfl⟩

end Barrel
